import Mathlib

/-!
Shallow embedding of `src/media_platform/zhihu/client.py` (`ZhiHuClient`):
the signed-request transport layer (`request`, `get`, `_pre_headers`) and the
paginated comment-traversal engine (`get_note_all_comments`,
`get_comments_all_sub_comments`, `get_root_comments`, `get_child_comments`).

External collaborators (the signer `sign`, the extractor
`ZhiHuJsonExtractor`, the HTTP stack, the config flag) are parameters of the
embedding; network interaction is represented by feeding the walk the sequence
of responses the server would return, and by an explicit event log recording
requests issued, callback invocations, accumulator extensions and sleeps.
-/

namespace MediaCrawler

/-! ## Transport layer: `ZhiHuClient.request` (client.py lines 55-95) -/

/-- Parsed JSON body of a 200 response.  `errorField = some m` models a truthy
`data.get("error")` dictionary whose `.get("message")` is `m` (`m = none` when
the message key is absent); `errorField = none` models an absent or falsy
`error` entry.  `raw` stands for the remainder of the payload. -/
structure JsonBody where
  errorField : Option (Option String)
  raw : String
  deriving DecidableEq

/-- An HTTP response as seen by `request`: status code, raw text, and the
result of attempting `response.json()` (`none` models `json.JSONDecodeError`). -/
structure HttpResponse where
  status_code : Nat
  text : String
  jsonParse : Option JsonBody
  deriving DecidableEq

/-- The two exception classes raised by `request` (zhihu/exception.py):
`ForbiddenError(response.text)` and `DataFetchError(...)`.  The `dataFetch`
payload is an optional string because line 91 raises
`DataFetchError(data.get("error", {}).get("message"))`, which may be `None`,
while lines 83 and 95 pass `response.text`. -/
inductive ReqError where
  | forbidden (body : String)
  | dataFetch (body : Option String)
  deriving DecidableEq

/-- A non-exceptional return of `request`: the raw text (when
`return_response` was set), a parsed JSON payload, or the empty dict `{}`
returned for a 404 (client.py line 81). -/
inductive ReqResult where
  | rawText (s : String)
  | payload (d : JsonBody)
  | emptyDict
  deriving DecidableEq

/-- One attempt of `ZhiHuClient.request` (client.py lines 66-95), as a function
of the HTTP response obtained for this attempt:
status ≠ 200 ⇒ 403 raises `ForbiddenError(text)`, 404 returns `{}`, anything
else raises `DataFetchError(text)`; on 200, `return_response` returns the raw
text, a JSON-decode failure raises `DataFetchError(text)`, a truthy embedded
`error` field raises `DataFetchError(error.message)`, else the payload is
returned. -/
def requestOnce (resp : HttpResponse) (return_response : Bool) :
    Except ReqError ReqResult :=
  if resp.status_code ≠ 200 then
    if resp.status_code = 403 then Except.error (ReqError.forbidden resp.text)
    else if resp.status_code = 404 then Except.ok ReqResult.emptyDict
    else Except.error (ReqError.dataFetch (some resp.text))
  else if return_response then Except.ok (ReqResult.rawText resp.text)
  else
    match resp.jsonParse with
    | none => Except.error (ReqError.dataFetch (some resp.text))
    | some body =>
      match body.errorField with
      | some msg => Except.error (ReqError.dataFetch msg)
      | none => Except.ok (ReqResult.payload body)

/-- Outcome of the tenacity `@retry(stop=stop_after_attempt(3), wait=wait_fixed(1))`
wrapper around `request` (client.py line 55): either a successful return
together with the number of attempts consumed, or — after the stop condition
fires — a `RetryError` wrapping the last attempt's exception (tenacity's
default `reraise=False`). -/
inductive RetryOutcome where
  | ok (v : ReqResult) (attempts : Nat)
  | retryError (last : ReqError) (attempts : Nat)
  deriving DecidableEq

/-- tenacity's retry loop specialised to `retry`'s defaults: every raised
exception is retried (`retry_if_exception_type(Exception)`); `made` attempts
have already been made and `allowed` more are allowed before
`stop_after_attempt` fires.  The `allowed = 0` arm is unreachable from
`requestRetry` (which starts with `allowed = 3`). -/
def retryGo (f : Nat → Except ReqError ReqResult) (made : Nat) :
    Nat → RetryOutcome
  | 0 => RetryOutcome.retryError (ReqError.dataFetch none) made
  | 1 =>
    match f made with
    | Except.ok v => RetryOutcome.ok v (made + 1)
    | Except.error e => RetryOutcome.retryError e (made + 1)
  | n + 2 =>
    match f made with
    | Except.ok v => RetryOutcome.ok v (made + 1)
    | Except.error _ => retryGo f (made + 1) (n + 1)

/-- The decorated `ZhiHuClient.request`: the i-th attempt is answered by the
HTTP response `resps i`; up to 3 total attempts (`stop_after_attempt(3)`),
with a fixed 1-second wait between attempts. -/
def requestRetry (resps : Nat → HttpResponse) (return_response : Bool) :
    RetryOutcome :=
  retryGo (fun i => requestOnce (resps i) return_response) 0 3

/-! ## Signed-request builder: `_pre_headers` and `get` (client.py 38-53, 98-112) -/

/-- Result of the external signer `sign(url, cookies)` (help.py, out of src):
per the spec it yields the two signature headers consumed at client.py
lines 51-52. -/
structure SignResult where
  x_zst_81 : String
  x_zse_96 : String
  deriving DecidableEq

/-- `dict.get`: first-match lookup in an association list (keys are unique in a
Python dict, so first match is the match). -/
def hget : List (String × String) → String → Option String
  | [], _ => none
  | (k', v') :: rest, k => if k' = k then some v' else hget rest k

/-- `dict[k] = v`: replace the value at an existing key, else append. -/
def hinsert : List (String × String) → String → String → List (String × String)
  | [], k, v => [(k, v)]
  | (k', v') :: rest, k, v =>
    if k' = k then (k, v) :: rest else (k', v') :: hinsert rest k v

/-- The client's session state: `self.cookie_dict` and `self.default_headers`
(client.py lines 34-35). -/
structure ClientState where
  cookie_dict : List (String × String)
  default_headers : List (String × String)
  deriving DecidableEq

/-- Failures of the signed GET path `get` before or after the transport:
`credential` is the bare `Exception("d_c0 not found in cookies")` of line 48;
`keyErr` is the `KeyError` a missing `"cookie"` entry would raise at line 49;
`signerErr` is an exception propagating out of the external `sign`;
`exhausted` is tenacity's `RetryError` after the transport gave up. -/
inductive GErr where
  | credential (msg : String)
  | keyErr (k : String)
  | signerErr (msg : String)
  | exhausted (last : ReqError)
  deriving DecidableEq

/-- `urllib.parse.urlencode` restricted to what the claims need: serialize the
parameter list into a `k=v&k=v` query string (percent-encoding elided — no
claim depends on it). -/
def urlencode (ps : List (String × String)) : String :=
  String.intercalate "&" (ps.map (fun kv => kv.1 ++ "=" ++ kv.2))

/-- `ZhiHuClient._pre_headers(url)` (client.py lines 38-53): check
`cookie_dict.get("d_c0")` for truthiness (None or `""` fail with the
credential error, before the signer is ever invoked); call the external signer
with the url and `default_headers["cookie"]`; copy the default headers and add
the two signature headers to the copy only.  Also returns how many times the
signer was invoked.  The state is not modified (the source writes only into
the copy), so no updated state is returned. -/
def preHeaders (signFn : String → String → Except String SignResult)
    (st : ClientState) (url : String) :
    Except GErr (List (String × String)) × Nat :=
  match hget st.cookie_dict "d_c0" with
  | none => (Except.error (GErr.credential "d_c0 not found in cookies"), 0)
  | some v =>
    if v = "" then
      (Except.error (GErr.credential "d_c0 not found in cookies"), 0)
    else
      match hget st.default_headers "cookie" with
      | none => (Except.error (GErr.keyErr "cookie"), 0)
      | some ck =>
        match signFn url ck with
        | Except.error m => (Except.error (GErr.signerErr m), 1)
        | Except.ok sr =>
          (Except.ok
            (hinsert (hinsert st.default_headers "x-zst-81" sr.x_zst_81)
              "x-zse-96" sr.x_zse_96), 1)

/-- The `final_uri` built at client.py lines 108-110: the uri with the
urlencoded params appended after `?` when params is a dict. -/
def finalUri (uri : String) (params : Option (List (String × String))) :
    String :=
  match params with
  | none => uri
  | some ps => uri ++ "?" ++ urlencode ps

/-- Observable trace of one call to `ZhiHuClient.get`: its outcome, the client
state after the call, the number of transport attempts actually issued over
the network, the number of signer invocations, and the headers handed to the
transport (when it was reached). -/
structure GetTrace where
  outcome : Except GErr ReqResult
  finalState : ClientState
  transportCalls : Nat
  signCalls : Nat
  headersUsed : Option (List (String × String))

/-- `ZhiHuClient.get(uri, params)` (client.py lines 98-112): build
`final_uri` by appending the urlencoded params, sign via `_pre_headers`
(whose failure aborts the call with zero transport attempts — the `@retry`
decorator sits on `request` only, not on `get`), then run the retry-wrapped
transport.  The i-th transport attempt is answered by `resps i`. -/
def zget (signFn : String → String → Except String SignResult)
    (st : ClientState) (resps : Nat → HttpResponse)
    (uri : String) (params : Option (List (String × String))) : GetTrace :=
  match preHeaders signFn st (finalUri uri params) with
  | (Except.error e, sc) =>
    { outcome := Except.error e, finalState := st, transportCalls := 0,
      signCalls := sc, headersUsed := none }
  | (Except.ok hs, sc) =>
    match requestRetry resps false with
    | RetryOutcome.ok v n =>
      { outcome := Except.ok v, finalState := st, transportCalls := n,
        signCalls := sc, headersUsed := some hs }
    | RetryOutcome.retryError e n =>
      { outcome := Except.error (GErr.exhausted e), finalState := st,
        transportCalls := n, signCalls := sc, headersUsed := some hs }

/-! ## Traversal engine: `get_note_all_comments` and
`get_comments_all_sub_comments` (client.py lines 242-319) -/

/-- Modelled from the spec: the `ZhihuComment` domain object (model/m_zhihu.py
is not under src/).  Spec §3 "Comment": a comment id and a sub-comment count
(the two attributes the traversal engine reads). -/
structure ZhihuComment where
  comment_id : String
  sub_comment_count : Nat
  deriving DecidableEq

/-- One comment-endpoint page response, already passed through the (opaque)
extractor adapter: `empty` models a falsy payload (the `{}` produced for a
404); `page ie nxt cs` models a truthy payload where `paging.get("is_end")`
yields `ie` (`none` when the key or the whole `paging` dict is missing),
`extract_offset(paging)` yields `nxt`, and `extract_comments(content, data)`
yields `cs`. -/
inductive PageRes where
  | empty
  | page (is_end : Option Bool) (next_offset : String)
      (comments : List ZhihuComment)
  deriving DecidableEq

/-- Events observable during a walk: a root-comment page request with the
offset it sends (`get_root_comments`), a child-comment page request with the
parent comment id and offset (`get_child_comments`), a callback invocation
(`await callback(comments)`), an extension of the root walk's `result`
accumulator, an extension of the child walk's `all_sub_comments` accumulator,
and an `asyncio.sleep(crawl_interval)`. -/
inductive Ev where
  | rootReq (offset : String)
  | childReq (comment_id : String) (offset : String)
  | cb (comments : List ZhihuComment)
  | extRoot (comments : List ZhihuComment)
  | extChild (comments : List ZhihuComment)
  | sleep
  deriving DecidableEq

/-- The comments a page contributes (`[]` for the empty payload). -/
def pageComments : PageRes → List ZhihuComment
  | PageRes.empty => []
  | PageRes.page _ _ cs => cs

/-- The offset the extractor reads off a page's paging metadata. -/
def pageNext : PageRes → String
  | PageRes.empty => ""
  | PageRes.page _ nxt _ => nxt

/-- The `while not is_end` loop of `get_comments_all_sub_comments`
(client.py lines 299-318) for one parent comment: the n-th iteration's request
is answered by the n-th element of `pages` (`none` when the supply runs out,
which cannot happen against a live server).  Per iteration: fetch
(`get_child_comments(parent_id, offset, limit)`), break on a falsy payload,
read `is_end` (Python truthiness: a missing value is falsy) and the next
offset, extract, break on no comments, invoke the callback if present, extend
`all_sub_comments`, sleep — then re-check `is_end`. -/
def childPageLoop (cid : String) (hasCb : Bool) :
    List PageRes → String → Option (List ZhihuComment × List Ev)
  | [], _ => none
  | p :: rest, off =>
    match p with
    | PageRes.empty => some ([], [Ev.childReq cid off])
    | PageRes.page ie nxt cs =>
      if cs.isEmpty then some ([], [Ev.childReq cid off])
      else
        let blk := Ev.childReq cid off ::
          (if hasCb then [Ev.cb cs] else []) ++ [Ev.extChild cs, Ev.sleep]
        if ie.getD false then some (cs, blk)
        else
          match childPageLoop cid hasCb rest nxt with
          | none => none
          | some (more, evs) => some (cs ++ more, blk ++ evs)

/-- The `for parment_comment in comments` loop of
`get_comments_all_sub_comments` (client.py lines 295-318): parents with
`sub_comment_count == 0` are skipped without any request; the others each run
`childPageLoop` from offset `""` against their own page supply
`cps comment_id`, sequentially, concatenating results and event logs. -/
def childWalkGo (cps : String → List PageRes) (hasCb : Bool) :
    List ZhihuComment → Option (List ZhihuComment × List Ev)
  | [] => some ([], [])
  | c :: csr =>
    if c.sub_comment_count = 0 then childWalkGo cps hasCb csr
    else
      match childPageLoop c.comment_id hasCb (cps c.comment_id) "" with
      | none => none
      | some (subs, evs) =>
        match childWalkGo cps hasCb csr with
        | none => none
        | some (subs2, evs2) => some (subs ++ subs2, evs ++ evs2)

/-- `ZhiHuClient.get_comments_all_sub_comments` (client.py lines 278-319):
returns `[]` at once — without touching the API — when
`config.ENABLE_GET_SUB_COMMENTS` (`es`) is false (lines 291-292). -/
def childWalk (es : Bool) (cps : String → List PageRes)
    (parents : List ZhihuComment) (hasCb : Bool) :
    Option (List ZhihuComment × List Ev) :=
  if es then childWalkGo cps hasCb parents else some ([], [])

/-- The `while not is_end` loop of `get_note_all_comments`
(client.py lines 258-276): per iteration, fetch a root-comment page at the
current offset (the n-th iteration consumes the n-th element of the page
list), break on a falsy payload, read `is_end` and the next offset from the
paging metadata, extract the comments, break when extraction yields none,
invoke the callback if present, extend `result`, run the child walk for the
page's comments (its returned list is discarded, line 274), sleep — then
re-check `is_end`. -/
def rootLoop (es : Bool) (cps : String → List PageRes) (hasCb : Bool) :
    List PageRes → String → Option (List ZhihuComment × List Ev)
  | [], _ => none
  | p :: rest, off =>
    match p with
    | PageRes.empty => some ([], [Ev.rootReq off])
    | PageRes.page ie nxt cs =>
      if cs.isEmpty then some ([], [Ev.rootReq off])
      else
        match childWalk es cps cs hasCb with
        | none => none
        | some (_, cevs) =>
          let blk := Ev.rootReq off ::
            (if hasCb then [Ev.cb cs] else []) ++ [Ev.extRoot cs] ++ cevs ++
            [Ev.sleep]
          if ie.getD false then some (cs, blk)
          else
            match rootLoop es cps hasCb rest nxt with
            | none => none
            | some (more, evs) => some (cs ++ more, blk ++ evs)

/-- `ZhiHuClient.get_note_all_comments` (client.py lines 242-276): the root
walk starts at offset `""` with an empty accumulator. -/
def getNoteAllComments (es : Bool) (cps : String → List PageRes)
    (hasCb : Bool) (pages : List PageRes) :
    Option (List ZhihuComment × List Ev) :=
  rootLoop es cps hasCb pages ""

/-! ## Validity predicates and log observers -/

/-- A well-formed paginated response sequence in the sense of the spec: at
least one page, every page truthy with a non-empty extracted comment list,
`is_end` falsy on every page but the last and truthy on the last. -/
def validSeq : List PageRes → Bool
  | [] => false
  | p :: rest =>
    match p with
    | PageRes.empty => false
    | PageRes.page ie _ cs =>
      !cs.isEmpty &&
        (match rest with
         | [] => ie.getD false
         | _ :: _ => !(ie.getD false) && validSeq rest)

/-- Every page truthy, with non-empty comments and falsy `is_end`: the shape
of a run that is still mid-walk (used to describe what precedes a 404). -/
def midSeq : List PageRes → Bool
  | [] => true
  | PageRes.empty :: _ => false
  | PageRes.page ie _ cs :: rest =>
    !(ie.getD false) && !cs.isEmpty && midSeq rest

/-- The offsets carried by the root-comment requests of a log, in order. -/
def rootReqOffsets (l : List Ev) : List String :=
  l.filterMap (fun e =>
    match e with
    | Ev.rootReq o => some o
    | _ => none)

/-- The offsets the walk is expected to send when it starts at `o` and threads
each page's extracted offset into the next request. -/
def offsetsFrom (o : String) : List PageRes → List String
  | [] => []
  | p :: rest => o :: offsetsFrom (pageNext p) rest

/-- The walk's trace ends with an `asyncio.sleep` (a delay was awaited after
the last page with nothing following it). -/
def EndsSleep (l : List Ev) : Prop :=
  l.getLast? = some Ev.sleep

/-- The log does not end in a callback invocation. -/
def NotCbLast (l : List Ev) : Prop :=
  ∀ cs, l.getLast? ≠ some (Ev.cb cs)

/-- The event right after a callback invocation is the extension of the
matching accumulator with exactly the comments that were passed to the
callback. -/
def NextIsExt (cs : List ZhihuComment) : List Ev → Prop
  | Ev.extRoot cs2 :: _ => cs2 = cs
  | Ev.extChild cs2 :: _ => cs2 = cs
  | _ => False

/-- Callback discipline of a log: every callback invocation carries a
non-empty comment list and is immediately followed by the extension of the
walk's accumulator with that same list. -/
def CbOk : List Ev → Prop
  | [] => True
  | Ev.cb cs :: rest => cs ≠ [] ∧ NextIsExt cs rest ∧ CbOk rest
  | _ :: rest => CbOk rest

/-- Between two consecutive root-comment requests there is always a sleep:
`pending` records whether a root request has been seen with no sleep since;
hitting another root request while `pending` is a violation. -/
def RootGap : Bool → List Ev → Prop
  | _, [] => True
  | pending, Ev.rootReq _ :: rest => pending = false ∧ RootGap true rest
  | _, Ev.sleep :: rest => RootGap false rest
  | pending, _ :: rest => RootGap pending rest

/-- State threaded by `RootGap` across a log. -/
def rootGapSt : Bool → List Ev → Bool
  | p, [] => p
  | _, Ev.rootReq _ :: rest => rootGapSt true rest
  | _, Ev.sleep :: rest => rootGapSt false rest
  | p, _ :: rest => rootGapSt p rest

/-- Between two consecutive child-comment requests there is always a sleep
(the per-walk analogue of `RootGap` for one `childPageLoop`). -/
def ChildGap : Bool → List Ev → Prop
  | _, [] => True
  | pending, Ev.childReq _ _ :: rest => pending = false ∧ ChildGap true rest
  | _, Ev.sleep :: rest => ChildGap false rest
  | pending, _ :: rest => ChildGap pending rest

/-- The root-accumulator extensions recorded in a log, in order. -/
def extRootLists (l : List Ev) : List (List ZhihuComment) :=
  l.filterMap (fun e =>
    match e with
    | Ev.extRoot cs => some cs
    | _ => none)

/-- The kinds of events a child page loop for parent `cid` can emit. -/
def ChildEvOk (cid : String) (e : Ev) : Prop :=
  (∃ o, e = Ev.childReq cid o) ∨ (∃ cs, e = Ev.cb cs) ∨
    (∃ cs, e = Ev.extChild cs) ∨ e = Ev.sleep

/-- The kinds of events a whole child walk over `parents` can emit: every
child-comment request targets a parent from the list whose sub-comment count
is non-zero. -/
def ChildWalkEvOk (parents : List ZhihuComment) (e : Ev) : Prop :=
  (∃ p o, p ∈ parents ∧ p.sub_comment_count ≠ 0 ∧
    e = Ev.childReq p.comment_id o) ∨
  (∃ cs, e = Ev.cb cs) ∨ (∃ cs, e = Ev.extChild cs) ∨ e = Ev.sleep

/-! ## Helper lemmas about the log observers -/

theorem nextIsExt_congr (cs : List ZhihuComment) (y : Ev) (t t' : List Ev)
    (h : NextIsExt cs (y :: t)) : NextIsExt cs (y :: t') := by
  cases y <;> simpa [NextIsExt] using h

theorem notCbLast_cons_cons (x y : Ev) (t : List Ev)
    (h : NotCbLast (x :: y :: t)) : NotCbLast (y :: t) := by
  intro cs hc
  exact h cs (by rwa [List.getLast?_cons_cons])

theorem cbOk_append {l1 l2 : List Ev} (h1 : CbOk l1) (h2 : CbOk l2)
    (h3 : NotCbLast l1) : CbOk (l1 ++ l2) := by
  induction l1 with
  | nil => simpa using h2
  | cons x t ih =>
    cases t with
    | nil =>
      cases x with
      | cb cs => exact absurd rfl (h3 cs)
      | rootReq o => simpa [CbOk] using h2
      | childReq c o => simpa [CbOk] using h2
      | extRoot cs => simpa [CbOk] using h2
      | extChild cs => simpa [CbOk] using h2
      | sleep => simpa [CbOk] using h2
    | cons y t' =>
      have h3' : NotCbLast (y :: t') := notCbLast_cons_cons x y t' h3
      cases x with
      | cb cs =>
        simp only [CbOk] at h1
        obtain ⟨hne, hnext, hrest⟩ := h1
        refine ⟨hne, ?_, ih hrest h3'⟩
        exact nextIsExt_congr cs y t' (t' ++ l2) hnext
      | rootReq o =>
        simp only [CbOk] at h1 ⊢
        exact ih h1 h3'
      | childReq c o =>
        simp only [CbOk] at h1 ⊢
        exact ih h1 h3'
      | extRoot cs =>
        simp only [CbOk] at h1 ⊢
        exact ih h1 h3'
      | extChild cs =>
        simp only [CbOk] at h1 ⊢
        exact ih h1 h3'
      | sleep =>
        simp only [CbOk] at h1 ⊢
        exact ih h1 h3'

theorem rootGap_append (p : Bool) (l1 l2 : List Ev) (h1 : RootGap p l1)
    (h2 : RootGap (rootGapSt p l1) l2) : RootGap p (l1 ++ l2) := by
  induction l1 generalizing p with
  | nil => simpa [rootGapSt] using h2
  | cons x t ih =>
    cases x with
    | rootReq o =>
      simp only [RootGap, rootGapSt] at h1 h2 ⊢
      exact ⟨h1.1, ih _ h1.2 h2⟩
    | sleep =>
      simp only [RootGap, rootGapSt] at h1 h2 ⊢
      exact ih _ h1 h2
    | cb cs =>
      simp only [RootGap, rootGapSt] at h1 h2 ⊢
      exact ih _ h1 h2
    | childReq c o =>
      simp only [RootGap, rootGapSt] at h1 h2 ⊢
      exact ih _ h1 h2
    | extRoot cs =>
      simp only [RootGap, rootGapSt] at h1 h2 ⊢
      exact ih _ h1 h2
    | extChild cs =>
      simp only [RootGap, rootGapSt] at h1 h2 ⊢
      exact ih _ h1 h2

theorem rootGap_of_no_root {l : List Ev} (h : ∀ o, Ev.rootReq o ∉ l) :
    ∀ p, RootGap p l := by
  induction l with
  | nil => intro p; trivial
  | cons x t ih =>
    have ht : ∀ o, Ev.rootReq o ∉ t := by
      intro o hm
      exact h o (List.mem_cons_of_mem x hm)
    intro p
    cases x with
    | rootReq o => exact absurd (List.mem_cons_self _ _) (h o)
    | sleep => exact ih ht false
    | cb cs => exact ih ht p
    | childReq c o => exact ih ht p
    | extRoot cs => exact ih ht p
    | extChild cs => exact ih ht p

/-! ## Unfolding lemmas for the two page loops -/

theorem childPageLoop_last {cid : String} {hcb : Bool} {ie : Option Bool}
    {nxt off : String} {cs : List ZhihuComment} {rest : List PageRes}
    (hcs : cs.isEmpty = false) (hie : ie.getD false = true) :
    childPageLoop cid hcb (PageRes.page ie nxt cs :: rest) off =
      some (cs, Ev.childReq cid off ::
        (if hcb then [Ev.cb cs] else []) ++ [Ev.extChild cs, Ev.sleep]) := by
  simp [childPageLoop, hcs, hie]

theorem childPageLoop_step {cid : String} {hcb : Bool} {ie : Option Bool}
    {nxt off : String} {cs : List ZhihuComment} {rest : List PageRes}
    (hcs : cs.isEmpty = false) (hie : ie.getD false = false) :
    childPageLoop cid hcb (PageRes.page ie nxt cs :: rest) off =
      match childPageLoop cid hcb rest nxt with
      | none => none
      | some (more, evs) =>
        some (cs ++ more, (Ev.childReq cid off ::
          (if hcb then [Ev.cb cs] else []) ++ [Ev.extChild cs, Ev.sleep]) ++
          evs) := by
  simp [childPageLoop, hcs, hie]

theorem rootLoop_go {es : Bool} {cps : String → List PageRes} {hcb : Bool}
    {ie : Option Bool} {nxt off : String} {cs : List ZhihuComment}
    {rest : List PageRes} (hcs : cs.isEmpty = false) :
    rootLoop es cps hcb (PageRes.page ie nxt cs :: rest) off =
      match childWalk es cps cs hcb with
      | none => none
      | some (_, cevs) =>
        if ie.getD false then
          some (cs, Ev.rootReq off ::
            (if hcb then [Ev.cb cs] else []) ++ [Ev.extRoot cs] ++ cevs ++
            [Ev.sleep])
        else
          match rootLoop es cps hcb rest nxt with
          | none => none
          | some (more, evs) =>
            some (cs ++ more, (Ev.rootReq off ::
              (if hcb then [Ev.cb cs] else []) ++ [Ev.extRoot cs] ++ cevs ++
              [Ev.sleep]) ++ evs) := by
  simp [rootLoop, hcs]

/-! ## Lemmas about the child-comment page loop -/

theorem childBlock_events (cid off : String) (cs : List ZhihuComment)
    (hcb : Bool) :
    ∀ e ∈ Ev.childReq cid off ::
      (if hcb then [Ev.cb cs] else []) ++ [Ev.extChild cs, Ev.sleep],
      ChildEvOk cid e := by
  cases hcb <;> intro e he <;> simp at he <;>
    rcases he with rfl | rfl | rfl | rfl <;>
    first
      | exact Or.inl ⟨off, rfl⟩
      | exact Or.inr (Or.inl ⟨cs, rfl⟩)
      | exact Or.inr (Or.inr (Or.inl ⟨cs, rfl⟩))
      | exact Or.inr (Or.inr (Or.inr rfl))

theorem childPageLoop_events {cid : String} {hcb : Bool} :
    ∀ {pages : List PageRes} {off : String} {res : List ZhihuComment}
      {log : List Ev},
      childPageLoop cid hcb pages off = some (res, log) →
      ∀ e ∈ log, ChildEvOk cid e := by
  intro pages
  induction pages with
  | nil => intro off res log h; simp [childPageLoop] at h
  | cons p rest ih =>
    intro off res log h
    cases p with
    | empty =>
      simp only [childPageLoop, Option.some.injEq, Prod.mk.injEq] at h
      obtain ⟨-, rfl⟩ := h
      intro e he
      simp only [List.mem_singleton] at he
      subst he
      exact Or.inl ⟨off, rfl⟩
    | page ie nxt cs =>
      cases hcs : cs.isEmpty with
      | true =>
        simp only [childPageLoop, hcs, if_true, Option.some.injEq,
          Prod.mk.injEq] at h
        obtain ⟨-, rfl⟩ := h
        intro e he
        simp only [List.mem_singleton] at he
        subst he
        exact Or.inl ⟨off, rfl⟩
      | false =>
        cases hie : ie.getD false with
        | true =>
          simp [childPageLoop, hcs, hie] at h
          obtain ⟨-, rfl⟩ := h
          exact childBlock_events cid off cs hcb
        | false =>
          cases hrec : childPageLoop cid hcb rest nxt with
          | none => simp [childPageLoop, hcs, hie, hrec] at h
          | some pr =>
            obtain ⟨more, evs⟩ := pr
            simp [childPageLoop, hcs, hie, hrec] at h
            obtain ⟨-, rfl⟩ := h
            intro e he
            cases hcb with
            | false =>
              simp at he
              rcases he with rfl | rfl | rfl | he
              · exact Or.inl ⟨off, rfl⟩
              · exact Or.inr (Or.inr (Or.inl ⟨cs, rfl⟩))
              · exact Or.inr (Or.inr (Or.inr rfl))
              · exact ih hrec e he
            | true =>
              simp at he
              rcases he with rfl | rfl | rfl | rfl | he
              · exact Or.inl ⟨off, rfl⟩
              · exact Or.inr (Or.inl ⟨cs, rfl⟩)
              · exact Or.inr (Or.inr (Or.inl ⟨cs, rfl⟩))
              · exact Or.inr (Or.inr (Or.inr rfl))
              · exact ih hrec e he

theorem notCbLast_append {l1 l2 : List Ev} (h1 : NotCbLast l1)
    (h2 : NotCbLast l2) : NotCbLast (l1 ++ l2) := by
  cases l2 with
  | nil => simpa using h1
  | cons y t =>
    intro cs
    rw [List.getLast?_append_cons]
    exact h2 cs

theorem isEmpty_false_ne_nil {cs : List ZhihuComment}
    (h : cs.isEmpty = false) : cs ≠ [] := by
  cases cs <;> simp_all

theorem childPageLoop_cb {cid : String} {hcb : Bool} :
    ∀ {pages : List PageRes} {off : String} {res : List ZhihuComment}
      {log : List Ev},
      childPageLoop cid hcb pages off = some (res, log) →
      CbOk log ∧ NotCbLast log ∧ log ≠ [] := by
  intro pages
  induction pages with
  | nil => intro off res log h; simp [childPageLoop] at h
  | cons p rest ih =>
    intro off res log h
    cases p with
    | empty =>
      simp only [childPageLoop, Option.some.injEq, Prod.mk.injEq] at h
      obtain ⟨-, rfl⟩ := h
      refine ⟨trivial, ?_, by simp⟩
      intro cs
      simp [NotCbLast]
    | page ie nxt cs =>
      cases hcs : cs.isEmpty with
      | true =>
        simp only [childPageLoop, hcs, if_true, Option.some.injEq,
          Prod.mk.injEq] at h
        obtain ⟨-, rfl⟩ := h
        refine ⟨trivial, ?_, by simp⟩
        intro cs'
        simp [NotCbLast]
      | false =>
        have hne : cs ≠ [] := isEmpty_false_ne_nil hcs
        cases hie : ie.getD false with
        | true =>
          simp [childPageLoop, hcs, hie] at h
          obtain ⟨-, rfl⟩ := h
          cases hcb <;>
            refine ⟨?_, ?_, by simp⟩ <;>
            simp [CbOk, NextIsExt, NotCbLast, hne, List.getLast?_cons_cons]
        | false =>
          cases hrec : childPageLoop cid hcb rest nxt with
          | none => simp [childPageLoop, hcs, hie, hrec] at h
          | some pr =>
            obtain ⟨more, evs⟩ := pr
            simp [childPageLoop, hcs, hie, hrec] at h
            obtain ⟨-, rfl⟩ := h
            obtain ⟨ihc, ihl, ihne⟩ := ih hrec
            have hblk :
                CbOk (Ev.childReq cid off ::
                  (if hcb then [Ev.cb cs] else []) ++
                    [Ev.extChild cs, Ev.sleep]) ∧
                NotCbLast (Ev.childReq cid off ::
                  (if hcb then [Ev.cb cs] else []) ++
                    [Ev.extChild cs, Ev.sleep]) := by
              cases hcb <;> constructor <;>
                simp [CbOk, NextIsExt, NotCbLast, hne, List.getLast?_cons_cons]
            constructor
            · have := cbOk_append hblk.1 ihc hblk.2
              simpa using this
            constructor
            · have := notCbLast_append hblk.2 ihl
              simpa using this
            · simp

theorem childPageLoop_gap {cid : String} {hcb : Bool} :
    ∀ {pages : List PageRes} {off : String} {res : List ZhihuComment}
      {log : List Ev},
      childPageLoop cid hcb pages off = some (res, log) →
      ChildGap false log := by
  intro pages
  induction pages with
  | nil => intro off res log h; simp [childPageLoop] at h
  | cons p rest ih =>
    intro off res log h
    cases p with
    | empty =>
      simp only [childPageLoop, Option.some.injEq, Prod.mk.injEq] at h
      obtain ⟨-, rfl⟩ := h
      simp [ChildGap]
    | page ie nxt cs =>
      cases hcs : cs.isEmpty with
      | true =>
        simp only [childPageLoop, hcs, if_true, Option.some.injEq,
          Prod.mk.injEq] at h
        obtain ⟨-, rfl⟩ := h
        simp [ChildGap]
      | false =>
        cases hie : ie.getD false with
        | true =>
          simp [childPageLoop, hcs, hie] at h
          obtain ⟨-, rfl⟩ := h
          cases hcb <;> simp [ChildGap]
        | false =>
          cases hrec : childPageLoop cid hcb rest nxt with
          | none => simp [childPageLoop, hcs, hie, hrec] at h
          | some pr =>
            obtain ⟨more, evs⟩ := pr
            simp [childPageLoop, hcs, hie, hrec] at h
            obtain ⟨-, rfl⟩ := h
            cases hcb <;> simpa [ChildGap] using ih hrec

theorem childPageLoop_some (cid : String) (hcb : Bool) :
    ∀ {pages : List PageRes}, validSeq pages = true → ∀ off,
      ∃ res log, childPageLoop cid hcb pages off = some (res, log) := by
  intro pages
  induction pages with
  | nil => intro hv; simp [validSeq] at hv
  | cons p rest ih =>
    intro hv off
    cases p with
    | empty => simp [validSeq] at hv
    | page ie nxt cs =>
      cases rest with
      | nil =>
        simp [validSeq] at hv
        obtain ⟨hcs, hie⟩ := hv
        have hcs' : cs.isEmpty = false := by cases cs <;> simp_all
        refine ⟨cs, Ev.childReq cid off ::
          (if hcb then [Ev.cb cs] else []) ++ [Ev.extChild cs, Ev.sleep], ?_⟩
        simp [childPageLoop, hcs', hie]
      | cons q rest' =>
        simp [validSeq] at hv
        obtain ⟨hcs, hie, hv'⟩ := hv
        have hcs' : cs.isEmpty = false := by cases cs <;> simp_all
        obtain ⟨res', log', hrec⟩ := ih hv' nxt
        refine ⟨cs ++ res', (Ev.childReq cid off ::
          (if hcb then [Ev.cb cs] else []) ++ [Ev.extChild cs, Ev.sleep]) ++
          log', ?_⟩
        rw [childPageLoop_step hcs' hie, hrec]

/-! ## Lemmas about the child walk over a list of parent comments -/

theorem childWalkEvOk_mono {c : ZhihuComment} {csr : List ZhihuComment}
    {e : Ev} (h : ChildWalkEvOk csr e) : ChildWalkEvOk (c :: csr) e := by
  rcases h with ⟨p, o, hp, hc, he⟩ | h | h | h
  · exact Or.inl ⟨p, o, List.mem_cons_of_mem c hp, hc, he⟩
  · exact Or.inr (Or.inl h)
  · exact Or.inr (Or.inr (Or.inl h))
  · exact Or.inr (Or.inr (Or.inr h))

theorem childEvOk_to_walk {c : ZhihuComment} {csr : List ZhihuComment}
    {e : Ev} (hz : c.sub_comment_count ≠ 0) (h : ChildEvOk c.comment_id e) :
    ChildWalkEvOk (c :: csr) e := by
  rcases h with ⟨o, he⟩ | h | h | h
  · exact Or.inl ⟨c, o, List.mem_cons_self c csr, hz, he⟩
  · exact Or.inr (Or.inl h)
  · exact Or.inr (Or.inr (Or.inl h))
  · exact Or.inr (Or.inr (Or.inr h))

theorem childWalkGo_events {cps : String → List PageRes} {hcb : Bool} :
    ∀ {parents res : List ZhihuComment} {log : List Ev},
      childWalkGo cps hcb parents = some (res, log) →
      ∀ e ∈ log, ChildWalkEvOk parents e := by
  intro parents
  induction parents with
  | nil =>
    intro res log h
    simp only [childWalkGo, Option.some.injEq, Prod.mk.injEq] at h
    obtain ⟨-, rfl⟩ := h
    intro e he
    simp at he
  | cons c csr ih =>
    intro res log h
    by_cases hz : c.sub_comment_count = 0
    · simp only [childWalkGo, hz, if_true] at h
      intro e he
      exact childWalkEvOk_mono (ih h e he)
    · simp only [childWalkGo, hz, if_false] at h
      cases hcl : childPageLoop c.comment_id hcb (cps c.comment_id) "" with
      | none => rw [hcl] at h; exact absurd h (by simp)
      | some pr =>
        obtain ⟨subs, evs⟩ := pr
        rw [hcl] at h
        cases hrec : childWalkGo cps hcb csr with
        | none => rw [hrec] at h; exact absurd h (by simp)
        | some pr2 =>
          obtain ⟨subs2, evs2⟩ := pr2
          rw [hrec] at h
          simp only [Option.some.injEq, Prod.mk.injEq] at h
          obtain ⟨-, rfl⟩ := h
          intro e he
          rcases List.mem_append.mp he with he | he
          · exact childEvOk_to_walk hz (childPageLoop_events hcl e he)
          · exact childWalkEvOk_mono (ih hrec e he)

theorem childWalkGo_cb {cps : String → List PageRes} {hcb : Bool} :
    ∀ {parents res : List ZhihuComment} {log : List Ev},
      childWalkGo cps hcb parents = some (res, log) →
      CbOk log ∧ NotCbLast log := by
  intro parents
  induction parents with
  | nil =>
    intro res log h
    simp only [childWalkGo, Option.some.injEq, Prod.mk.injEq] at h
    obtain ⟨-, rfl⟩ := h
    exact ⟨trivial, by intro cs; simp⟩
  | cons c csr ih =>
    intro res log h
    by_cases hz : c.sub_comment_count = 0
    · simp only [childWalkGo, hz, if_true] at h
      exact ih h
    · simp only [childWalkGo, hz, if_false] at h
      cases hcl : childPageLoop c.comment_id hcb (cps c.comment_id) "" with
      | none => rw [hcl] at h; exact absurd h (by simp)
      | some pr =>
        obtain ⟨subs, evs⟩ := pr
        rw [hcl] at h
        cases hrec : childWalkGo cps hcb csr with
        | none => rw [hrec] at h; exact absurd h (by simp)
        | some pr2 =>
          obtain ⟨subs2, evs2⟩ := pr2
          rw [hrec] at h
          simp only [Option.some.injEq, Prod.mk.injEq] at h
          obtain ⟨-, rfl⟩ := h
          obtain ⟨hc1, hl1, -⟩ := childPageLoop_cb hcl
          obtain ⟨hc2, hl2⟩ := ih hrec
          exact ⟨cbOk_append hc1 hc2 hl1, notCbLast_append hl1 hl2⟩

theorem childWalkGo_some {cps : String → List PageRes} {hcb : Bool}
    (hv : ∀ id, validSeq (cps id) = true) :
    ∀ parents : List ZhihuComment,
      ∃ res log, childWalkGo cps hcb parents = some (res, log) := by
  intro parents
  induction parents with
  | nil => exact ⟨[], [], rfl⟩
  | cons c csr ih =>
    obtain ⟨res', log', hrec⟩ := ih
    by_cases hz : c.sub_comment_count = 0
    · exact ⟨res', log', by simp only [childWalkGo, hz, if_true]; exact hrec⟩
    · obtain ⟨subs, evs, hcl⟩ :=
        childPageLoop_some c.comment_id hcb (hv c.comment_id) ""
      refine ⟨subs ++ res', evs ++ log', ?_⟩
      simp only [childWalkGo, hz, if_false]
      rw [hcl, hrec]

theorem childWalk_events {es : Bool} {cps : String → List PageRes}
    {parents res : List ZhihuComment} {hcb : Bool} {log : List Ev}
    (h : childWalk es cps parents hcb = some (res, log)) :
    ∀ e ∈ log, ChildWalkEvOk parents e := by
  cases es with
  | false =>
    simp only [childWalk, if_false, Option.some.injEq, Prod.mk.injEq,
      Bool.false_eq_true] at h
    obtain ⟨-, rfl⟩ := h
    intro e he
    simp at he
  | true => exact childWalkGo_events h

theorem childWalk_cb {es : Bool} {cps : String → List PageRes}
    {parents res : List ZhihuComment} {hcb : Bool} {log : List Ev}
    (h : childWalk es cps parents hcb = some (res, log)) :
    CbOk log ∧ NotCbLast log := by
  cases es with
  | false =>
    simp only [childWalk, if_false, Option.some.injEq, Prod.mk.injEq,
      Bool.false_eq_true] at h
    obtain ⟨-, rfl⟩ := h
    exact ⟨trivial, by intro cs; simp⟩
  | true => exact childWalkGo_cb h

theorem childWalk_some (parents : List ZhihuComment) {es : Bool}
    {cps : String → List PageRes} {hcb : Bool}
    (hv : es = true → ∀ id, validSeq (cps id) = true) :
    ∃ res log, childWalk es cps parents hcb = some (res, log) := by
  cases es with
  | false => exact ⟨[], [], rfl⟩
  | true =>
    obtain ⟨res, log, h⟩ := childWalkGo_some (hv rfl) parents
    exact ⟨res, log, by simpa [childWalk] using h⟩

theorem childWalk_no_root {es : Bool} {cps : String → List PageRes}
    {parents res : List ZhihuComment} {hcb : Bool} {log : List Ev}
    (h : childWalk es cps parents hcb = some (res, log)) :
    ∀ o, Ev.rootReq o ∉ log := by
  intro o hm
  rcases childWalk_events h _ hm with ⟨p, o', _, _, he⟩ | ⟨cs, he⟩ |
    ⟨cs, he⟩ | he <;> simp at he

theorem childWalk_no_extRoot {es : Bool} {cps : String → List PageRes}
    {parents res : List ZhihuComment} {hcb : Bool} {log : List Ev}
    (h : childWalk es cps parents hcb = some (res, log)) :
    ∀ cs, Ev.extRoot cs ∉ log := by
  intro cs hm
  rcases childWalk_events h _ hm with ⟨p, o', _, _, he⟩ | ⟨cs', he⟩ |
    ⟨cs', he⟩ | he <;> simp at he

/-! ## Small observer computation lemmas -/

theorem extRootLists_eq_nil {l : List Ev} (h : ∀ cs, Ev.extRoot cs ∉ l) :
    extRootLists l = [] := by
  refine List.filterMap_eq_nil_iff.mpr ?_
  intro e he
  cases e with
  | extRoot cs => exact absurd he (h cs)
  | rootReq o => rfl
  | childReq c o => rfl
  | cb cs => rfl
  | extChild cs => rfl
  | sleep => rfl

theorem rootReqOffsets_eq_nil {l : List Ev} (h : ∀ o, Ev.rootReq o ∉ l) :
    rootReqOffsets l = [] := by
  refine List.filterMap_eq_nil_iff.mpr ?_
  intro e he
  cases e with
  | rootReq o => exact absurd he (h o)
  | childReq c o => rfl
  | cb cs => rfl
  | extRoot cs => rfl
  | extChild cs => rfl
  | sleep => rfl

theorem endsSleep_concat (l : List Ev) : EndsSleep (l ++ [Ev.sleep]) := by
  simp [EndsSleep]

theorem rootGapSt_sleep_last : ∀ (l : List Ev) (p : Bool),
    rootGapSt p (l ++ [Ev.sleep]) = false := by
  intro l
  induction l with
  | nil => intro p; rfl
  | cons x t ih => intro p; cases x <;> simp [rootGapSt, ih]

/-! ## Lemmas about the root-comment walk -/

theorem rootBlock_no_root {cs : List ZhihuComment} {hcb : Bool}
    {cevs : List Ev} (hno : ∀ o, Ev.rootReq o ∉ cevs) :
    ∀ o, Ev.rootReq o ∉
      (if hcb then [Ev.cb cs] else []) ++ [Ev.extRoot cs] ++ cevs ++
        [Ev.sleep] := by
  intro o hm
  simp only [List.mem_append] at hm
  rcases hm with ((hm | hm) | hm) | hm
  · cases hcb <;> simp at hm
  · simp at hm
  · exact hno o hm
  · simp at hm

theorem rootGap_block {off : String} {cs : List ZhihuComment} {hcb : Bool}
    {cevs evs : List Ev} (hno : ∀ o, Ev.rootReq o ∉ cevs)
    (hevs : RootGap false evs) :
    RootGap false ((Ev.rootReq off ::
      (if hcb then [Ev.cb cs] else []) ++ [Ev.extRoot cs] ++ cevs ++
      [Ev.sleep]) ++ evs) := by
  show RootGap false (Ev.rootReq off ::
    ((if hcb then [Ev.cb cs] else []) ++ [Ev.extRoot cs] ++ cevs ++
      [Ev.sleep] ++ evs))
  refine ⟨rfl, ?_⟩
  have hst : rootGapSt true
      ((if hcb then [Ev.cb cs] else []) ++ [Ev.extRoot cs] ++ cevs ++
        [Ev.sleep]) = false := rootGapSt_sleep_last _ true
  exact rootGap_append true _ evs
    (rootGap_of_no_root (rootBlock_no_root hno) true) (hst.symm ▸ hevs)

theorem cbOk_root_block {off : String} {cs : List ZhihuComment} {hcb : Bool}
    {cevs evs : List Ev} (hne : cs ≠ []) (hc : CbOk cevs)
    (hl : NotCbLast cevs) (hevs : CbOk evs) :
    CbOk ((Ev.rootReq off ::
      (if hcb then [Ev.cb cs] else []) ++ [Ev.extRoot cs] ++ cevs ++
      [Ev.sleep]) ++ evs) := by
  have htail : CbOk ((cevs ++ [Ev.sleep]) ++ evs) := by
    rw [List.append_assoc]
    refine cbOk_append hc ?_ hl
    simpa [CbOk] using hevs
  cases hcb with
  | false =>
    show CbOk (Ev.rootReq off :: Ev.extRoot cs ::
      ((cevs ++ [Ev.sleep]) ++ evs))
    simpa only [CbOk] using htail
  | true =>
    show CbOk (Ev.rootReq off :: Ev.cb cs :: Ev.extRoot cs ::
      ((cevs ++ [Ev.sleep]) ++ evs))
    simp only [CbOk, NextIsExt]
    exact ⟨hne, trivial, htail⟩

theorem notCbLast_root_block {off : String} {cs : List ZhihuComment}
    {hcb : Bool} {cevs evs : List Ev} (hevs : NotCbLast evs) :
    NotCbLast ((Ev.rootReq off ::
      (if hcb then [Ev.cb cs] else []) ++ [Ev.extRoot cs] ++ cevs ++
      [Ev.sleep]) ++ evs) := by
  refine notCbLast_append ?_ hevs
  intro cs'
  rw [List.getLast?_concat]
  simp

theorem extRootLists_root_block {off : String} {cs : List ZhihuComment}
    {hcb : Bool} {cevs evs : List Ev}
    (hno : ∀ cs', Ev.extRoot cs' ∉ cevs) :
    extRootLists ((Ev.rootReq off ::
      (if hcb then [Ev.cb cs] else []) ++ [Ev.extRoot cs] ++ cevs ++
      [Ev.sleep]) ++ evs) = cs :: extRootLists evs := by
  have h0 : extRootLists cevs = [] := extRootLists_eq_nil hno
  simp only [extRootLists, List.filterMap_append, List.filterMap_cons] at h0 ⊢
  cases hcb <;> simp_all [extRootLists]

theorem rootReqOffsets_root_block {off : String} {cs : List ZhihuComment}
    {hcb : Bool} {cevs evs : List Ev}
    (hno : ∀ o, Ev.rootReq o ∉ cevs) :
    rootReqOffsets ((Ev.rootReq off ::
      (if hcb then [Ev.cb cs] else []) ++ [Ev.extRoot cs] ++ cevs ++
      [Ev.sleep]) ++ evs) = off :: rootReqOffsets evs := by
  have h0 : rootReqOffsets cevs = [] := rootReqOffsets_eq_nil hno
  simp only [rootReqOffsets, List.filterMap_append, List.filterMap_cons] at h0 ⊢
  cases hcb <;> simp_all [rootReqOffsets]

theorem extRoot_mem_block {off : String} {cs cs' : List ZhihuComment}
    {hcb : Bool} {cevs evs : List Ev}
    (hnx : ∀ c, Ev.extRoot c ∉ cevs)
    (hm : Ev.extRoot cs' ∈ (Ev.rootReq off ::
      (if hcb then [Ev.cb cs] else []) ++ [Ev.extRoot cs] ++ cevs ++
      [Ev.sleep]) ++ evs) : cs' = cs ∨ Ev.extRoot cs' ∈ evs := by
  simp only [List.mem_append, List.mem_cons, List.mem_singleton] at hm
  rcases hm with ((((hm | hm) | hm) | hm) | hm) | hm
  · simp at hm
  · cases hcb with
    | false => simp at hm
    | true => simp at hm
  · simp at hm; exact Or.inl hm
  · exact absurd hm (hnx cs')
  · simp at hm
  · exact Or.inr hm

theorem rootLoop_shape {es : Bool} {cps : String → List PageRes} {hcb : Bool} :
    ∀ {pages : List PageRes} {off : String} {res : List ZhihuComment}
      {log : List Ev},
      rootLoop es cps hcb pages off = some (res, log) →
      res = (extRootLists log).join ∧
      (∀ cs, Ev.extRoot cs ∈ log → ∃ p, p ∈ pages ∧ pageComments p = cs) ∧
      CbOk log ∧ NotCbLast log ∧ RootGap false log := by
  intro pages
  induction pages with
  | nil => intro off res log h; simp [rootLoop] at h
  | cons p rest ih =>
    intro off res log h
    cases p with
    | empty =>
      simp only [rootLoop, Option.some.injEq, Prod.mk.injEq] at h
      obtain ⟨rfl, rfl⟩ := h
      refine ⟨rfl, ?_, trivial, ?_, ⟨rfl, trivial⟩⟩
      · intro cs hm; simp at hm
      · intro cs; simp
    | page ie nxt cs =>
      cases hcs : cs.isEmpty with
      | true =>
        simp only [rootLoop, hcs, if_true, Option.some.injEq,
          Prod.mk.injEq] at h
        obtain ⟨rfl, rfl⟩ := h
        refine ⟨rfl, ?_, trivial, ?_, ⟨rfl, trivial⟩⟩
        · intro cs' hm; simp at hm
        · intro cs'; simp
      | false =>
        have hne : cs ≠ [] := isEmpty_false_ne_nil hcs
        rw [rootLoop_go hcs] at h
        cases hcw : childWalk es cps cs hcb with
        | none => rw [hcw] at h; simp at h
        | some pr =>
          obtain ⟨subs, cevs⟩ := pr
          rw [hcw] at h
          have hnr := childWalk_no_root hcw
          have hnx := childWalk_no_extRoot hcw
          obtain ⟨hcc, hcl⟩ := childWalk_cb hcw
          cases hie : ie.getD false with
          | true =>
            simp only [hie, if_true, Option.some.injEq, Prod.mk.injEq] at h
            obtain ⟨rfl, rfl⟩ := h
            have hez : CbOk ([] : List Ev) := trivial
            have hel : NotCbLast ([] : List Ev) := by intro c; simp
            have heg : RootGap false ([] : List Ev) := trivial
            rw [show (Ev.rootReq off ::
                (if hcb then [Ev.cb cs] else []) ++ [Ev.extRoot cs] ++ cevs ++
                [Ev.sleep]) = (Ev.rootReq off ::
                (if hcb then [Ev.cb cs] else []) ++ [Ev.extRoot cs] ++ cevs ++
                [Ev.sleep]) ++ ([] : List Ev) from (List.append_nil _).symm]
            refine ⟨?_, ?_, cbOk_root_block hne hcc hcl hez,
              notCbLast_root_block hel, rootGap_block hnr heg⟩
            · rw [extRootLists_root_block hnx]
              simp [extRootLists]
            · intro cs' hm
              rcases extRoot_mem_block hnx hm with rfl | hm'
              · exact ⟨PageRes.page ie nxt cs', List.mem_cons_self _ _, rfl⟩
              · simp at hm' 
          | false =>
            simp only [hie, if_false, Bool.false_eq_true] at h
            cases hrec : rootLoop es cps hcb rest nxt with
            | none => rw [hrec] at h; simp at h
            | some pr2 =>
              obtain ⟨more, evs⟩ := pr2
              rw [hrec] at h
              simp only [Option.some.injEq, Prod.mk.injEq] at h
              obtain ⟨rfl, rfl⟩ := h
              obtain ⟨ih1, ih2, ih3, ih4, ih5⟩ := ih hrec
              refine ⟨?_, ?_, ?_, ?_, ?_⟩
              · rw [extRootLists_root_block hnx, ih1]
                simp
              · intro cs' hm
                rcases extRoot_mem_block hnx hm with rfl | hm'
                · exact ⟨PageRes.page ie nxt cs', List.mem_cons_self _ _, rfl⟩
                · obtain ⟨q, hq, hqc⟩ := ih2 cs' hm'
                  exact ⟨q, List.mem_cons_of_mem _ hq, hqc⟩
              · exact cbOk_root_block hne hcc hcl ih3
              · exact notCbLast_root_block ih4
              · exact rootGap_block hnr ih5

theorem endsSleep_append {l1 l2 : List Ev} (h : EndsSleep l2) :
    EndsSleep (l1 ++ l2) := by
  have hne : l2 ≠ [] := by
    intro he
    rw [he] at h
    simp [EndsSleep] at h
  unfold EndsSleep at h ⊢
  rw [List.getLast?_append_of_ne_nil _ hne]
  exact h

theorem endsSleep_root_block {o : String} {c : List ZhihuComment} {b : Bool}
    {u : List Ev} :
    EndsSleep (Ev.rootReq o ::
      (if b then [Ev.cb c] else []) ++ [Ev.extRoot c] ++ u ++ [Ev.sleep]) := by
  show (_ ++ [Ev.sleep]).getLast? = some Ev.sleep
  rw [List.getLast?_concat]

theorem rootReqOffsets_root_leaf {o : String} {c : List ZhihuComment}
    {b : Bool} {u : List Ev} (hno : ∀ o', Ev.rootReq o' ∉ u) :
    rootReqOffsets (Ev.rootReq o ::
      (if b then [Ev.cb c] else []) ++ [Ev.extRoot c] ++ u ++ [Ev.sleep]) =
      [o] := by
  have h0 : rootReqOffsets u = [] := rootReqOffsets_eq_nil hno
  simp only [rootReqOffsets, List.filterMap_append, List.filterMap_cons] at h0 ⊢
  cases b <;> simp_all [rootReqOffsets]

/-- Under a well-formed page sequence the root walk consumes exactly the
pages, returns the concatenation of their extracted comments, sends exactly
the offsets threaded from the paging metadata (starting from `off`), never
touches the extra supply `rest`, and ends its trace with a sleep. -/
theorem rootLoop_valid_spec {es : Bool} {cps : String → List PageRes}
    {hcb : Bool} (hcv : es = true → ∀ id, validSeq (cps id) = true) :
    ∀ {pages : List PageRes} (off : String) (rest : List PageRes),
      validSeq pages = true →
      ∃ log, rootLoop es cps hcb (pages ++ rest) off =
          some ((pages.map pageComments).join, log) ∧
        rootReqOffsets log = offsetsFrom off pages ∧ EndsSleep log := by
  intro pages
  induction pages with
  | nil => intro off rest hv; simp [validSeq] at hv
  | cons p pages' ih =>
    intro off rest hv
    cases p with
    | empty => simp [validSeq] at hv
    | page ie nxt cs =>
      obtain ⟨subs, cevs, hcw⟩ := childWalk_some cs hcv
      have hno := childWalk_no_root hcw
      cases pages' with
      | nil =>
        simp [validSeq] at hv
        obtain ⟨hcs, hie⟩ := hv
        have hcs' : cs.isEmpty = false := by cases cs <;> simp_all
        refine ⟨Ev.rootReq off :: (if hcb then [Ev.cb cs] else []) ++
          [Ev.extRoot cs] ++ cevs ++ [Ev.sleep], ?_, ?_, endsSleep_root_block⟩
        · rw [List.singleton_append, rootLoop_go hcs', hcw]
          simp [hie, pageComments]
        · rw [rootReqOffsets_root_leaf hno]
          simp [offsetsFrom, pageNext]
      | cons q pages'' =>
        simp only [validSeq] at hv
        rw [Bool.and_eq_true, Bool.and_eq_true] at hv
        obtain ⟨hcs, hie, hv'⟩ := hv
        have hcs' : cs.isEmpty = false := by
          cases h : cs.isEmpty
          · rfl
          · rw [h] at hcs; simp at hcs
        have hie' : ie.getD false = false := by
          cases h : ie.getD false
          · rfl
          · rw [h] at hie; simp at hie
        obtain ⟨log', heq, hoff, hsl⟩ := ih nxt rest hv'
        refine ⟨(Ev.rootReq off :: (if hcb then [Ev.cb cs] else []) ++
          [Ev.extRoot cs] ++ cevs ++ [Ev.sleep]) ++ log', ?_, ?_, ?_⟩
        · rw [List.cons_append, rootLoop_go hcs', hcw]
          simp only [hie', if_false, Bool.false_eq_true]
          rw [heq]
          simp [pageComments]
        · rw [rootReqOffsets_root_block hno, hoff]
          simp [offsetsFrom, pageNext]
        · exact endsSleep_append hsl

/-- When the server answers a run of mid-walk pages and then an empty
payload (the 404 case), the walk stops at the empty payload: it returns
exactly the comments accumulated from the earlier pages and issues exactly
one request per page plus the final one answered empty. -/
theorem rootLoop_mid_spec {es : Bool} {cps : String → List PageRes}
    {hcb : Bool} (hcv : es = true → ∀ id, validSeq (cps id) = true) :
    ∀ {mids : List PageRes} (off : String) (rest : List PageRes),
      midSeq mids = true →
      ∃ log, rootLoop es cps hcb (mids ++ PageRes.empty :: rest) off =
          some ((mids.map pageComments).join, log) ∧
        rootReqOffsets log = offsetsFrom off (mids ++ [PageRes.empty]) := by
  intro mids
  induction mids with
  | nil =>
    intro off rest hv
    refine ⟨[Ev.rootReq off], ?_, ?_⟩
    · simp [rootLoop]
    · simp [rootReqOffsets, offsetsFrom]
  | cons p mids' ih =>
    intro off rest hv
    cases p with
    | empty => simp [midSeq] at hv
    | page ie nxt cs =>
      simp only [midSeq] at hv
      rw [Bool.and_eq_true, Bool.and_eq_true] at hv
      obtain ⟨⟨hie0, hcs0⟩, hv'⟩ := hv
      have hie : ie.getD false = false := by
        cases h : ie.getD false
        · rfl
        · rw [h] at hie0; simp at hie0
      have hcs' : cs.isEmpty = false := by
        cases h : cs.isEmpty
        · rfl
        · rw [h] at hcs0; simp at hcs0
      obtain ⟨subs, cevs, hcw⟩ := childWalk_some cs hcv
      have hno := childWalk_no_root hcw
      obtain ⟨log', heq, hoff⟩ := ih nxt rest hv'
      refine ⟨(Ev.rootReq off :: (if hcb then [Ev.cb cs] else []) ++
        [Ev.extRoot cs] ++ cevs ++ [Ev.sleep]) ++ log', ?_, ?_⟩
      · rw [List.cons_append, rootLoop_go hcs', hcw]
        simp only [hie, if_false, Bool.false_eq_true]
        rw [heq]
        simp [pageComments]
      · rw [rootReqOffsets_root_block hno, hoff]
        simp [offsetsFrom, pageNext]

theorem offsetsFrom_length (o : String) :
    ∀ l : List PageRes, (offsetsFrom o l).length = l.length := by
  intro l
  induction l generalizing o with
  | nil => rfl
  | cons p rest ih => simp [offsetsFrom, ih]

/-! ## Claim theorems -/

/-- C2 counterexample: the claim says a 403's forbidden failure "is never
retried by the Transport's retry mechanism (the attempt is not repeated after
a 403)".  On the code this is false: `request`'s tenacity decorator retries
every exception.  Concretely, with a first response of 403 and a second of
200, the transport makes a second attempt after the 403 and returns that
second response's payload — 2 attempts, not a forbidden failure after 1. -/
theorem c2_forbidden_not_retried_counterexample :
    requestOnce ⟨403, "blocked", none⟩ false =
      Except.error (ReqError.forbidden "blocked") ∧
    requestRetry (fun i => if i = 0 then ⟨403, "blocked", none⟩
      else ⟨200, "ok", some ⟨none, "okbody"⟩⟩) false =
      RetryOutcome.ok (ReqResult.payload ⟨none, "okbody"⟩) 2 :=
  ⟨rfl, rfl⟩

/-- C2 amended: an HTTP 403 raises `ForbiddenError` carrying the original
response body, a failure distinct from the generic `DataFetchError`; however
the retry decorator on `request` treats it like any other exception, so the
attempt IS repeated after a 403, up to 3 total attempts, after which a
retry-exhausted error wrapping the last `ForbiddenError` surfaces. -/
theorem c2_forbidden_error_retried (b : String) (j : Option JsonBody)
    (rr : Bool) (resps : Nat → HttpResponse)
    (h : ∀ i, resps i = ⟨403, b, j⟩) :
    requestOnce ⟨403, b, j⟩ rr = Except.error (ReqError.forbidden b) ∧
    (∀ m, ReqError.forbidden b ≠ ReqError.dataFetch m) ∧
    requestRetry resps rr = RetryOutcome.retryError (ReqError.forbidden b) 3 := by
  refine ⟨by simp [requestOnce], fun m => by simp, ?_⟩
  simp [requestRetry, retryGo, h, requestOnce]

theorem c2_forbidden_error_retried_witness :
    requestOnce ⟨403, "x", none⟩ false =
      Except.error (ReqError.forbidden "x") ∧
    (∀ m, ReqError.forbidden "x" ≠ ReqError.dataFetch m) ∧
    requestRetry (fun _ => ⟨403, "x", none⟩) false =
      RetryOutcome.retryError (ReqError.forbidden "x") 3 :=
  c2_forbidden_error_retried "x" none false (fun _ => ⟨403, "x", none⟩)
    (fun _ => rfl)

/-- C3 counterexample: the claim says a Signer failure is "retried up to 3
total attempts" with the original error surfacing after exhaustion.  On the
code this is false: signing happens in `get`, outside the retry-decorated
`request`, so a signer exception aborts the call with exactly one signing
attempt, zero transport attempts, and the error surfacing immediately. -/
theorem c3_signing_retry_counterexample :
    zget (fun _ _ => Except.error "sign boom")
        ⟨[("d_c0", "v")], [("cookie", "ck")]⟩
        (fun _ => ⟨200, "ok", some ⟨none, "okbody"⟩⟩) "/api/v4/me" none =
      { outcome := Except.error (GErr.signerErr "sign boom"),
        finalState := ⟨[("d_c0", "v")], [("cookie", "ck")]⟩,
        transportCalls := 0, signCalls := 1, headersUsed := none } :=
  rfl

/-- C3 amended: when the Signer adapter raises for a signed GET request, the
request is aborted before any transport call: the signing failure is not
retried (the retry decorator wraps only `request`, and signing happens before
it), the signer runs exactly once, no network attempt is made, and the signer's
error surfaces to the caller immediately. -/
theorem c3_signing_fail_fast (sf : String → String → Except String SignResult)
    (st : ClientState) (resps : Nat → HttpResponse) (uri : String)
    (params : Option (List (String × String))) (dv ck msg : String)
    (hd : hget st.cookie_dict "d_c0" = some dv) (hdv : dv ≠ "")
    (hck : hget st.default_headers "cookie" = some ck)
    (hs : sf (finalUri uri params) ck = Except.error msg) :
    zget sf st resps uri params =
      { outcome := Except.error (GErr.signerErr msg), finalState := st,
        transportCalls := 0, signCalls := 1, headersUsed := none } := by
  simp [zget, preHeaders, hd, hdv, hck, hs]

theorem c3_signing_fail_fast_witness :
    zget (fun _ _ => Except.error "m") ⟨[("d_c0", "v")], [("cookie", "c")]⟩
        (fun _ => ⟨200, "t", none⟩) "/u" none =
      { outcome := Except.error (GErr.signerErr "m"),
        finalState := ⟨[("d_c0", "v")], [("cookie", "c")]⟩,
        transportCalls := 0, signCalls := 1, headersUsed := none } :=
  c3_signing_fail_fast (fun _ _ => Except.error "m")
    ⟨[("d_c0", "v")], [("cookie", "c")]⟩ (fun _ => ⟨200, "t", none⟩)
    "/u" none "v" "c" "m" rfl (by decide) rfl rfl

/-- C7: when the required session cookie `d_c0` is absent (or empty, which
Python's truthiness check also rejects), a signed GET fails immediately with
the credential error: the signer is never invoked, no transport attempt is
made, nothing is retried, and the error surfaces to the caller at once. -/
theorem c7_missing_d_c0_fail_fast
    (sf : String → String → Except String SignResult) (st : ClientState)
    (resps : Nat → HttpResponse) (uri : String)
    (params : Option (List (String × String)))
    (h : hget st.cookie_dict "d_c0" = none ∨
      hget st.cookie_dict "d_c0" = some "") :
    zget sf st resps uri params =
      { outcome := Except.error (GErr.credential "d_c0 not found in cookies"),
        finalState := st, transportCalls := 0, signCalls := 0,
        headersUsed := none } := by
  rcases h with h | h <;> simp [zget, preHeaders, h]

theorem c7_missing_d_c0_fail_fast_witness :
    zget (fun _ _ => Except.ok ⟨"A", "B"⟩) ⟨[], [("cookie", "c")]⟩
        (fun _ => ⟨200, "t", none⟩) "/u" none =
      { outcome := Except.error (GErr.credential "d_c0 not found in cookies"),
        finalState := ⟨[], [("cookie", "c")]⟩, transportCalls := 0,
        signCalls := 0, headersUsed := none } :=
  c7_missing_d_c0_fail_fast (fun _ _ => Except.ok ⟨"A", "B"⟩)
    ⟨[], [("cookie", "c")]⟩ (fun _ => ⟨200, "t", none⟩) "/u" none
    (Or.inl rfl)

/-- C5: an HTTP 404 on a comment endpoint is mapped by the transport to the
empty payload `{}` without raising (so the retry wrapper returns it as a
success on the first attempt), and the walk treats the empty payload as
natural end-of-data: after any run of mid-walk pages followed by an
empty-payload answer, the walk stops there — it issues exactly one request
per prior page plus the one answered empty, and returns exactly the comments
accumulated from the prior pages. -/
theorem c5_404_empty_termination :
    (∀ (t : String) (j : Option JsonBody) (rr : Bool),
      requestOnce ⟨404, t, j⟩ rr = Except.ok ReqResult.emptyDict) ∧
    (∀ (resps : Nat → HttpResponse) (rr : Bool) (t : String)
      (j : Option JsonBody), resps 0 = ⟨404, t, j⟩ →
      requestRetry resps rr = RetryOutcome.ok ReqResult.emptyDict 1) ∧
    (∀ (es : Bool) (cps : String → List PageRes) (cb : Bool)
      (mids rest : List PageRes), midSeq mids = true →
      (es = true → ∀ id, validSeq (cps id) = true) →
      ∃ log, getNoteAllComments es cps cb (mids ++ PageRes.empty :: rest) =
          some ((mids.map pageComments).join, log) ∧
        (rootReqOffsets log).length = mids.length + 1) := by
  refine ⟨fun t j rr => by simp [requestOnce], ?_, ?_⟩
  · intro resps rr t j h0
    simp [requestRetry, retryGo, h0, requestOnce]
  · intro es cps cb mids rest hm hc
    obtain ⟨log, heq, hoff⟩ := rootLoop_mid_spec hc "" rest hm
    refine ⟨log, heq, ?_⟩
    rw [hoff, offsetsFrom_length]
    simp

theorem c5_404_empty_termination_witness :
    requestOnce ⟨404, "nf", none⟩ false = Except.ok ReqResult.emptyDict ∧
    requestRetry (fun _ => ⟨404, "nf", none⟩) false =
      RetryOutcome.ok ReqResult.emptyDict 1 ∧
    (∃ log, getNoteAllComments false (fun _ => []) true
        ([PageRes.page (some false) "o1" [⟨"c1", 0⟩]] ++
          PageRes.empty :: []) =
        some ((([PageRes.page (some false) "o1"
          [⟨"c1", 0⟩]]).map pageComments).join, log) ∧
      (rootReqOffsets log).length =
        ([PageRes.page (some false) "o1" [⟨"c1", 0⟩]]).length + 1) :=
  ⟨c5_404_empty_termination.1 "nf" none false,
   c5_404_empty_termination.2.1 (fun _ => ⟨404, "nf", none⟩) false "nf" none
     rfl,
   c5_404_empty_termination.2.2 false (fun _ => []) true
     [PageRes.page (some false) "o1" [⟨"c1", 0⟩]] [] rfl
     (fun h => by simp at h)⟩

/-- C6: the child-comment endpoint is called only when the
`ENABLE_GET_SUB_COMMENTS` flag is true and the parent's `sub_comment_count`
is non-zero: with the flag false the child walk returns `[]` immediately with
no request at all, and in every child walk each child-comment request in the
trace targets a parent from the list whose sub-comment count is non-zero (so
a parent with count 0 never triggers a fetch). -/
theorem c6_child_fetch_guard :
    (∀ (cps : String → List PageRes) (parents : List ZhihuComment)
      (cb : Bool), childWalk false cps parents cb = some ([], [])) ∧
    (∀ (es : Bool) (cps : String → List PageRes)
      (parents res : List ZhihuComment) (cb : Bool) (log : List Ev),
      childWalk es cps parents cb = some (res, log) →
      ∀ cid o, Ev.childReq cid o ∈ log →
        ∃ p, p ∈ parents ∧ p.comment_id = cid ∧ p.sub_comment_count ≠ 0) := by
  constructor
  · intro cps parents cb; rfl
  · intro es cps parents res cb log h cid o hm
    rcases childWalk_events h _ hm with ⟨p, o', hp, hz, he⟩ | ⟨cs, he⟩ |
      ⟨cs, he⟩ | he
    · simp only [Ev.childReq.injEq] at he
      exact ⟨p, hp, he.1.symm, hz⟩
    · simp at he
    · simp at he
    · simp at he

theorem c6_child_fetch_guard_witness :
    childWalk false (fun _ => []) [] true = some ([], []) ∧
    (∃ p, p ∈ [(⟨"r1", 2⟩ : ZhihuComment)] ∧
      ZhihuComment.comment_id p = "r1" ∧
      ZhihuComment.sub_comment_count p ≠ 0) :=
  ⟨c6_child_fetch_guard.1 (fun _ => []) [] true,
   c6_child_fetch_guard.2 true
     (fun _ => [PageRes.page (some true) "x" [⟨"s1", 0⟩]])
     [⟨"r1", 2⟩] [⟨"s1", 0⟩]
     true [Ev.childReq "r1" "", Ev.cb [⟨"s1", 0⟩], Ev.extChild [⟨"s1", 0⟩],
       Ev.sleep] rfl "r1" "" (by simp)⟩

/-- C1: for every well-formed sequence of root-comment pages (`is_end` false
until a final page with `is_end` true, as `validSeq` states), and any further
responses the server might hold, `get_note_all_comments` issues exactly one
request per page — the first with offset `""` and each later one with exactly
the offset extracted from the previous page's paging metadata — terminates
after the `is_end` page (the extra supply is never touched), and returns the
concatenation of the pages' extracted comments in fetch order.  In
particular, on the two-page fixture it returns `[c1, c2, c3]` and issues
exactly 2 requests with offsets `""` then `"o1"`. -/
theorem c1_root_walk_pagination (es cb : Bool) (cps : String → List PageRes)
    (pages rest : List PageRes) (hv : validSeq pages = true)
    (hc : es = true → ∀ id, validSeq (cps id) = true) :
    (∃ log, getNoteAllComments es cps cb (pages ++ rest) =
        some ((pages.map pageComments).join, log) ∧
      rootReqOffsets log = offsetsFrom "" pages ∧
      (rootReqOffsets log).length = pages.length) ∧
    (getNoteAllComments false (fun _ => []) true
        [PageRes.page (some false) "o1" [⟨"c1", 0⟩, ⟨"c2", 0⟩],
         PageRes.page (some true) "o2" [⟨"c3", 0⟩]] =
      some ([⟨"c1", 0⟩, ⟨"c2", 0⟩, ⟨"c3", 0⟩],
        [Ev.rootReq "", Ev.cb [⟨"c1", 0⟩, ⟨"c2", 0⟩],
         Ev.extRoot [⟨"c1", 0⟩, ⟨"c2", 0⟩], Ev.sleep, Ev.rootReq "o1",
         Ev.cb [⟨"c3", 0⟩], Ev.extRoot [⟨"c3", 0⟩], Ev.sleep]) ∧
      rootReqOffsets [Ev.rootReq "", Ev.cb [⟨"c1", 0⟩, ⟨"c2", 0⟩],
         Ev.extRoot [⟨"c1", 0⟩, ⟨"c2", 0⟩], Ev.sleep, Ev.rootReq "o1",
         Ev.cb [⟨"c3", 0⟩], Ev.extRoot [⟨"c3", 0⟩], Ev.sleep] = ["", "o1"]) := by
  constructor
  · obtain ⟨log, h1, h2, h3⟩ := rootLoop_valid_spec hc "" rest hv
    refine ⟨log, h1, h2, ?_⟩
    rw [h2, offsetsFrom_length]
  · exact ⟨rfl, rfl⟩

theorem c1_root_walk_pagination_witness :
    validSeq [PageRes.page (some true) "oz" [⟨"w", 0⟩]] = true ∧
    (∃ log, getNoteAllComments false (fun _ => []) false
        ([PageRes.page (some true) "oz" [⟨"w", 0⟩]] ++ []) =
        some ((([PageRes.page (some true) "oz"
          [⟨"w", 0⟩]]).map pageComments).join, log) ∧
      rootReqOffsets log =
        offsetsFrom "" [PageRes.page (some true) "oz" [⟨"w", 0⟩]] ∧
      (rootReqOffsets log).length =
        ([PageRes.page (some true) "oz" [⟨"w", 0⟩]]).length) :=
  ⟨rfl, (c1_root_walk_pagination false false (fun _ => [])
    [PageRes.page (some true) "oz" [⟨"w", 0⟩]] [] rfl
    (fun h => by simp at h)).1⟩

/-- C4 counterexample: the claim says no delay is applied after the final
page of a walk.  On the code this is false: `asyncio.sleep` sits at the end
of the loop body, so when the walk terminates via `is_end = true` the delay
is awaited after the final page.  Concretely, a one-page walk whose single
page carries `is_end = true` produces a trace whose last event is the sleep,
with no further fetch after it. -/
theorem c4_no_final_sleep_counterexample :
    getNoteAllComments false (fun _ => []) true
        [PageRes.page (some true) "oX" [⟨"c1", 0⟩]] =
      some ([⟨"c1", 0⟩],
        [Ev.rootReq "", Ev.cb [⟨"c1", 0⟩], Ev.extRoot [⟨"c1", 0⟩],
         Ev.sleep]) ∧
    EndsSleep [Ev.rootReq "", Ev.cb [⟨"c1", 0⟩], Ev.extRoot [⟨"c1", 0⟩],
      Ev.sleep] :=
  ⟨rfl, rfl⟩

/-- C4 amended: the configured inter-page delay is awaited between two
consecutive page fetches of the same walk (between consecutive root-comment
requests of a root walk, and between consecutive child-comment requests of
one child page loop, there is always a sleep), but in addition a delay IS
awaited after the final page when a walk terminates via the `is_end` flag
(no delay follows only the empty-payload and empty-extraction breaks). -/
theorem c4_sleep_policy :
    (∀ (es : Bool) (cps : String → List PageRes) (cb : Bool)
      (pages : List PageRes) (off : String)
      (out : List ZhihuComment × List Ev),
      rootLoop es cps cb pages off = some out → RootGap false out.2) ∧
    (∀ (cid : String) (cb : Bool) (pages : List PageRes) (off : String)
      (out : List ZhihuComment × List Ev),
      childPageLoop cid cb pages off = some out → ChildGap false out.2) ∧
    (∀ (es : Bool) (cps : String → List PageRes) (cb : Bool)
      (pages rest : List PageRes) (off : String), validSeq pages = true →
      (es = true → ∀ id, validSeq (cps id) = true) →
      ∃ res log, rootLoop es cps cb (pages ++ rest) off = some (res, log) ∧
        EndsSleep log) := by
  refine ⟨?_, ?_, ?_⟩
  · intro es cps cb pages off out h
    obtain ⟨res, log⟩ := out
    exact (rootLoop_shape h).2.2.2.2
  · intro cid cb pages off out h
    obtain ⟨res, log⟩ := out
    exact childPageLoop_gap h
  · intro es cps cb pages rest off hv hc
    obtain ⟨log, h1, h2, h3⟩ := rootLoop_valid_spec hc off rest hv
    exact ⟨_, log, h1, h3⟩

theorem c4_sleep_policy_witness :
    RootGap false [Ev.rootReq "", Ev.cb [⟨"c1", 0⟩], Ev.extRoot [⟨"c1", 0⟩],
      Ev.sleep] ∧
    ChildGap false [Ev.childReq "r1" "", Ev.cb [⟨"s1", 0⟩],
      Ev.extChild [⟨"s1", 0⟩], Ev.sleep] ∧
    (∃ res log, rootLoop false (fun _ => []) true
        ([PageRes.page (some true) "oX" [⟨"c1", 0⟩]] ++ []) "" =
        some (res, log) ∧ EndsSleep log) :=
  ⟨c4_sleep_policy.1 false (fun _ => []) true
     [PageRes.page (some true) "oX" [⟨"c1", 0⟩]] ""
     ([⟨"c1", 0⟩], [Ev.rootReq "", Ev.cb [⟨"c1", 0⟩],
       Ev.extRoot [⟨"c1", 0⟩], Ev.sleep]) rfl,
   c4_sleep_policy.2.1 "r1" true
     [PageRes.page (some true) "x" [⟨"s1", 0⟩]] ""
     ([⟨"s1", 0⟩], [Ev.childReq "r1" "", Ev.cb [⟨"s1", 0⟩],
       Ev.extChild [⟨"s1", 0⟩], Ev.sleep]) rfl,
   c4_sleep_policy.2.2 false (fun _ => []) true
     [PageRes.page (some true) "oX" [⟨"c1", 0⟩]] [] "" rfl
     (fun h => by simp at h)⟩

/-- C8: a signed GET merges the signature headers into a copy of the default
headers: after any call to `get` the shared `default_headers` mapping is
unchanged, and when signing succeeds the headers handed to the transport are
exactly the default headers with the two signature keys added to the
per-request copy. -/
theorem c8_default_headers_immutable
    (sf : String → String → Except String SignResult) (st : ClientState)
    (resps : Nat → HttpResponse) (uri : String)
    (params : Option (List (String × String))) :
    (zget sf st resps uri params).finalState.default_headers =
      st.default_headers ∧
    (∀ ck sr dv, hget st.default_headers "cookie" = some ck →
      sf (finalUri uri params) ck = Except.ok sr →
      hget st.cookie_dict "d_c0" = some dv → dv ≠ "" →
      (zget sf st resps uri params).headersUsed =
        some (hinsert (hinsert st.default_headers "x-zst-81" sr.x_zst_81)
          "x-zse-96" sr.x_zse_96)) := by
  constructor
  · rcases hph : preHeaders sf st (finalUri uri params) with ⟨out, sc⟩
    cases out with
    | error e => simp [zget, hph]
    | ok hs =>
      cases hrr : requestRetry resps false with
      | ok v n => simp [zget, hph, hrr]
      | retryError e n => simp [zget, hph, hrr]
  · intro ck sr dv hck hsf hd hdv
    cases hrr : requestRetry resps false with
    | ok v n => simp [zget, preHeaders, hd, hdv, hck, hsf, hrr]
    | retryError e n => simp [zget, preHeaders, hd, hdv, hck, hsf, hrr]

theorem c8_default_headers_immutable_witness :
    (zget (fun _ _ => Except.ok ⟨"A", "B"⟩)
        ⟨[("d_c0", "v")], [("cookie", "ck")]⟩ (fun _ => ⟨200, "t", none⟩)
        "/u" none).finalState.default_headers = [("cookie", "ck")] ∧
    (zget (fun _ _ => Except.ok ⟨"A", "B"⟩)
        ⟨[("d_c0", "v")], [("cookie", "ck")]⟩ (fun _ => ⟨200, "t", none⟩)
        "/u" none).headersUsed =
      some (hinsert (hinsert [("cookie", "ck")] "x-zst-81" "A")
        "x-zse-96" "B") :=
  ⟨(c8_default_headers_immutable (fun _ _ => Except.ok ⟨"A", "B"⟩)
      ⟨[("d_c0", "v")], [("cookie", "ck")]⟩ (fun _ => ⟨200, "t", none⟩)
      "/u" none).1,
   (c8_default_headers_immutable (fun _ _ => Except.ok ⟨"A", "B"⟩)
      ⟨[("d_c0", "v")], [("cookie", "ck")]⟩ (fun _ => ⟨200, "t", none⟩)
      "/u" none).2 "ck" ⟨"A", "B"⟩ "v" rfl rfl rfl (by decide)⟩

/-- C9: the list `get_note_all_comments` returns contains root comments only:
in every run the returned accumulator is exactly the concatenation of the
root-page extensions recorded in the trace, each of which is the extracted
comment list of one of the supplied root pages; and no run of the child walk
ever records an extension of the root accumulator (its sub-comments are
delivered only through the callback and its own return value). -/
theorem c9_root_list_purity :
    (∀ (es : Bool) (cps : String → List PageRes) (cb : Bool)
      (pages : List PageRes) (res : List ZhihuComment) (log : List Ev),
      getNoteAllComments es cps cb pages = some (res, log) →
      res = (extRootLists log).join ∧
      ∀ cs, Ev.extRoot cs ∈ log → ∃ p, p ∈ pages ∧ pageComments p = cs) ∧
    (∀ (es : Bool) (cps : String → List PageRes)
      (parents res : List ZhihuComment) (cb : Bool) (log : List Ev),
      childWalk es cps parents cb = some (res, log) →
      ∀ cs, Ev.extRoot cs ∉ log) := by
  constructor
  · intro es cps cb pages res log h
    have hs := rootLoop_shape h
    exact ⟨hs.1, hs.2.1⟩
  · intro es cps parents res cb log h
    exact childWalk_no_extRoot h

theorem c9_root_list_purity_witness :
    ([⟨"c1", 0⟩] : List ZhihuComment) =
      (extRootLists [Ev.rootReq "", Ev.cb [⟨"c1", 0⟩],
        Ev.extRoot [⟨"c1", 0⟩], Ev.sleep]).join ∧
    (∀ cs, Ev.extRoot cs ∉ ([] : List Ev)) :=
  ⟨((c9_root_list_purity.1 false (fun _ => []) true
      [PageRes.page (some true) "oX" [⟨"c1", 0⟩]] [⟨"c1", 0⟩]
      [Ev.rootReq "", Ev.cb [⟨"c1", 0⟩], Ev.extRoot [⟨"c1", 0⟩], Ev.sleep]
      rfl).1),
   c9_root_list_purity.2 false (fun _ => []) [] [] true [] rfl⟩

/-- C10: in both walks the callback discipline holds on every run: each
callback invocation recorded in the trace carries a non-empty comment list
(extraction yielding no comments terminates the walk before the callback),
and each invocation is immediately followed by the extension of the walk's
own accumulator with exactly that list — the callback fires before the
comments are appended. -/
theorem c10_callback_discipline :
    (∀ (es : Bool) (cps : String → List PageRes) (cb : Bool)
      (pages : List PageRes) (res : List ZhihuComment) (log : List Ev),
      getNoteAllComments es cps cb pages = some (res, log) → CbOk log) ∧
    (∀ (es : Bool) (cps : String → List PageRes)
      (parents res : List ZhihuComment) (cb : Bool) (log : List Ev),
      childWalk es cps parents cb = some (res, log) → CbOk log) := by
  constructor
  · intro es cps cb pages res log h
    exact (rootLoop_shape h).2.2.1
  · intro es cps parents res cb log h
    exact (childWalk_cb h).1

theorem c10_callback_discipline_witness :
    CbOk [Ev.rootReq "", Ev.cb [⟨"c1", 0⟩], Ev.extRoot [⟨"c1", 0⟩],
      Ev.sleep] ∧
    CbOk [Ev.childReq "r1" "", Ev.cb [⟨"s1", 0⟩], Ev.extChild [⟨"s1", 0⟩],
      Ev.sleep] :=
  ⟨c10_callback_discipline.1 false (fun _ => []) true
     [PageRes.page (some true) "oX" [⟨"c1", 0⟩]] [⟨"c1", 0⟩]
     [Ev.rootReq "", Ev.cb [⟨"c1", 0⟩], Ev.extRoot [⟨"c1", 0⟩], Ev.sleep]
     rfl,
   c10_callback_discipline.2 true
     (fun _ => [PageRes.page (some true) "x" [⟨"s1", 0⟩]])
     [⟨"r1", 2⟩] [⟨"s1", 0⟩] true
     [Ev.childReq "r1" "", Ev.cb [⟨"s1", 0⟩], Ev.extChild [⟨"s1", 0⟩],
       Ev.sleep] rfl⟩

end MediaCrawler
